import Mathlib

/-!
Verification of the agent reasoning loop of `langchain-rust`
(`src/agent/executor.rs`, `src/agent/chat/output_parser.rs`).

The Rust code is shallowly embedded: pure functions become Lean
functions, the executor's `loop` becomes a fuel-indexed recursion that
also returns an explicit event trace (planning calls, tool invocations,
memory writes) so that effect-counting properties can be stated.
`serde_json` values are modelled by the inductive `Json` below together
with a recursive-descent parser `from_str`; JSON numbers are kept as
their source lexeme, which is faithful for every comparison appearing
in this development.
-/

namespace LangchainRust

/-- Model of `serde_json::Value`.  Objects are association lists in
first-insertion order with overwrite-on-duplicate (the map semantics of
`serde_json`); no property below depends on object key ordering. -/
inductive Json where
  | null : Json
  | bool (b : Bool) : Json
  | num (lexeme : String) : Json
  | str (s : String) : Json
  | arr (items : List Json) : Json
  | obj (fields : List (String × Json)) : Json

/-- JSON insignificant whitespace. -/
def isJsonWs (c : Char) : Bool :=
  c = ' ' || c = '\t' || c = '\n' || c = '\r'

/-- Skip insignificant whitespace between tokens. -/
def skipWs (cs : List Char) : List Char :=
  cs.dropWhile isJsonWs

/-- Insert into an object map, overwriting an existing key. -/
def insertKV : List (String × Json) → String → Json → List (String × Json)
  | [], k, v => [(k, v)]
  | (k0, v0) :: rest, k, v =>
    if k0 = k then (k, v) :: rest else (k0, v0) :: insertKV rest k v

/-- Value of one hex digit. -/
def hexVal (c : Char) : Option Nat :=
  if '0' ≤ c ∧ c ≤ '9' then some (c.toNat - '0'.toNat)
  else if 'a' ≤ c ∧ c ≤ 'f' then some (c.toNat - 'a'.toNat + 10)
  else if 'A' ≤ c ∧ c ≤ 'F' then some (c.toNat - 'A'.toNat + 10)
  else none

/-- Read four hex digits of a `\u` escape. -/
def read4Hex : List Char → Option (Nat × List Char)
  | a :: b :: c :: d :: rest =>
    match hexVal a, hexVal b, hexVal c, hexVal d with
    | some x, some y, some z, some w => some (((x * 16 + y) * 16 + z) * 16 + w, rest)
    | _, _, _, _ => none
  | _ => none

/-- Decode one string escape after the backslash; returns the decoded
characters and the remaining input.  Surrogate pairs are combined, lone
surrogates are rejected (as `serde_json` does). -/
def readEscape : List Char → Option (List Char × List Char)
  | [] => none
  | e :: rest =>
    if e = '"' then some (['"'], rest)
    else if e = '\\' then some (['\\'], rest)
    else if e = '/' then some (['/'], rest)
    else if e = 'b' then some (['\x08'], rest)
    else if e = 'f' then some (['\x0c'], rest)
    else if e = 'n' then some (['\n'], rest)
    else if e = 'r' then some (['\r'], rest)
    else if e = 't' then some (['\t'], rest)
    else if e = 'u' then
      match read4Hex rest with
      | none => none
      | some (hi, r1) =>
        if 0xD800 ≤ hi ∧ hi < 0xDC00 then
          match r1 with
          | '\\' :: 'u' :: r2 =>
            match read4Hex r2 with
            | some (lo, r3) =>
              if 0xDC00 ≤ lo ∧ lo < 0xE000 then
                some ([Char.ofNat (0x10000 + (hi - 0xD800) * 0x400 + (lo - 0xDC00))], r3)
              else none
            | none => none
          | _ => none
        else if 0xDC00 ≤ hi ∧ hi < 0xE000 then none
        else some ([Char.ofNat hi], r1)
    else none

/-- Read the body of a JSON string after its opening quote. -/
def readStringRest : Nat → List Char → Option (String × List Char)
  | 0, _ => none
  | _ + 1, [] => none
  | fuel + 1, c :: rest =>
    if c = '"' then some ("", rest)
    else if c = '\\' then
      match readEscape rest with
      | none => none
      | some (decoded, r1) =>
        match readStringRest fuel r1 with
        | none => none
        | some (s, r2) => some (String.mk decoded ++ s, r2)
    else if c.toNat < 0x20 then none
    else
      match readStringRest fuel rest with
      | none => none
      | some (s, r2) => some (String.mk [c] ++ s, r2)

def isDigit (c : Char) : Bool := '0' ≤ c ∧ c ≤ '9'

/-- Read the integer-part digits of a number: `0` or a nonzero digit
followed by digits. -/
def readIntDigits (cs : List Char) : Option (List Char × List Char) :=
  match cs with
  | [] => none
  | c :: rest =>
    if c = '0' then some ([c], rest)
    else if isDigit c then
      some (c :: rest.takeWhile isDigit, rest.dropWhile isDigit)
    else none

/-- Read a JSON number, returning its lexeme. -/
def readNumber (cs : List Char) : Option (Json × List Char) :=
  let (sign, cs1) :=
    match cs with
    | '-' :: rest => (['-'], rest)
    | _ => (([] : List Char), cs)
  match readIntDigits cs1 with
  | none => none
  | some (ip, cs2) =>
    let fracRes : Option (List Char × List Char) :=
      match cs2 with
      | '.' :: rest =>
        let ds := rest.takeWhile isDigit
        if ds.isEmpty then none
        else some ('.' :: ds, rest.dropWhile isDigit)
      | _ => some (([] : List Char), cs2)
    match fracRes with
    | none => none
    | some (fp, cs3) =>
      match cs3 with
      | e :: rest =>
        if e = 'e' ∨ e = 'E' then
          let (es, rest1) :=
            match rest with
            | '+' :: r => (['+'], r)
            | '-' :: r => (['-'], r)
            | _ => (([] : List Char), rest)
          let ds := rest1.takeWhile isDigit
          if ds.isEmpty then none
          else
            some (.num (String.mk (sign ++ ip ++ fp ++ e :: es ++ ds)),
              rest1.dropWhile isDigit)
        else some (.num (String.mk (sign ++ ip ++ fp)), cs3)
      | [] => some (.num (String.mk (sign ++ ip ++ fp)), cs3)

mutual

/-- Recursive-descent JSON value parser (model of `serde_json`'s
grammar).  The fuel only bounds recursion depth; `2 * length + 2` is
always enough. -/
def parseValue : Nat → List Char → Option (Json × List Char)
  | 0, _ => none
  | fuel + 1, cs =>
    match skipWs cs with
    | [] => none
    | c :: rest =>
      if c = '\x7b' then parseObjBody fuel rest
      else if c = '[' then parseArrBody fuel rest
      else if c = '"' then
        match readStringRest (rest.length + 1) rest with
        | none => none
        | some (s, r) => some (.str s, r)
      else
        match c :: rest with
        | 't' :: 'r' :: 'u' :: 'e' :: r => some (.bool true, r)
        | 'f' :: 'a' :: 'l' :: 's' :: 'e' :: r => some (.bool false, r)
        | 'n' :: 'u' :: 'l' :: 'l' :: r => some (.null, r)
        | cs1 => readNumber cs1

/-- Parse an object body after the opening brace. -/
def parseObjBody : Nat → List Char → Option (Json × List Char)
  | 0, _ => none
  | fuel + 1, cs =>
    match skipWs cs with
    | '\x7d' :: rest => some (.obj [], rest)
    | cs1 => parseFields fuel cs1 []

/-- Parse the fields of a nonempty object. -/
def parseFields : Nat → List Char → List (String × Json) → Option (Json × List Char)
  | 0, _, _ => none
  | fuel + 1, cs, acc =>
    match skipWs cs with
    | '"' :: rest =>
      match readStringRest (rest.length + 1) rest with
      | none => none
      | some (k, r1) =>
        match skipWs r1 with
        | ':' :: r2 =>
          match parseValue fuel r2 with
          | none => none
          | some (v, r3) =>
            let acc1 := insertKV acc k v
            match skipWs r3 with
            | ',' :: r4 => parseFields fuel r4 acc1
            | '\x7d' :: r4 => some (.obj acc1, r4)
            | _ => none
        | _ => none
    | _ => none

/-- Parse an array body after the opening bracket. -/
def parseArrBody : Nat → List Char → Option (Json × List Char)
  | 0, _ => none
  | fuel + 1, cs =>
    match skipWs cs with
    | ']' :: rest => some (.arr [], rest)
    | cs1 => parseElems fuel cs1 []

/-- Parse the elements of a nonempty array. -/
def parseElems : Nat → List Char → List Json → Option (Json × List Char)
  | 0, _, _ => none
  | fuel + 1, cs, acc =>
    match parseValue fuel cs with
    | none => none
    | some (v, r1) =>
      match skipWs r1 with
      | ',' :: r2 => parseElems fuel r2 (acc ++ [v])
      | ']' :: r2 => some (.arr (acc ++ [v]), r2)
      | _ => none

end

/-- Model of `serde_json::from_str::<Value>`: one JSON document,
nothing but whitespace after it. -/
def from_str (s : String) : Option Json :=
  match parseValue (2 * s.length + 2) s.data with
  | some (v, rest) => if (skipWs rest).isEmpty then some v else none
  | none => none

/-! ### The repair scan of `parse_partial_json`
(`src/agent/chat/output_parser.rs`, lines 77-106).

The Rust loop walks the characters tracking `is_inside_string`, an
`escaped` flag and a `VecDeque` of expected closing brackets used as a
stack (`push_back` / `pop_back`).  The stack is modelled as a `List
Char` whose head is the back of the deque.  The Rust loop also copies
every visited character into `new_s`, so on a completed scan `new_s`
equals the input; the model therefore only returns the final stack. -/

/-- One pass of the repair scan: returns the remaining stack of
expected closers on success, `none` on a mismatched or unbalanced
closing character. -/
def scanChars : List Char → List Char → Bool → Bool → Option (List Char)
  | [], stack, _, _ => some stack
  | c :: rest, stack, inside, esc =>
    if c = '"' ∧ esc = false then scanChars rest stack (!inside) esc
    else if c = '\x7b' ∧ inside = false then scanChars rest ('\x7d' :: stack) inside esc
    else if c = '[' ∧ inside = false then scanChars rest (']' :: stack) inside esc
    else if (c = '\x7d' ∨ c = ']') ∧ inside = false then
      match stack with
      | [] => none
      | top :: stack1 => if top = c then scanChars rest stack1 inside esc else none
    else if c = '\\' ∧ inside = true then scanChars rest stack inside (!esc)
    else scanChars rest stack inside false

/-- The repair stage of `parse_partial_json`, reached when the direct
parse failed: scan the input, and on success append the remaining
expected closers in pop order, then re-parse. -/
def repairStage (s : String) : Option Json :=
  match scanChars s.data [] false false with
  | none => none
  | some stack => from_str (s ++ String.mk stack)

/-- Model of `parse_partial_json` (`output_parser.rs`, lines 69-110): direct
parse first; on failure, in non-strict mode, run the repair stage.
(The Rust identifier uses snake case; the Lean name differs only in
casing.) -/
def parsePartialJson (s : String) (strict : Bool) : Option Json :=
  match from_str s with
  | some v => some v
  | none => if strict then none else repairStage s

/-- Whether `pat` is a prefix of `cs`. -/
def startsWith : List Char → List Char → Bool
  | [], _ => true
  | _ :: _, [] => false
  | p :: ps, c :: cs => p = c && startsWith ps cs

/-- Split at the first occurrence of `pat`, returning the part before
it and the part after it. -/
def splitOnce (pat : List Char) : List Char → Option (List Char × List Char)
  | [] => none
  | c :: cs =>
    if startsWith pat (c :: cs) then some ([], (c :: cs).drop pat.length)
    else
      match splitOnce pat cs with
      | none => none
      | some (before, after) => some (c :: before, after)

/-- ASCII whitespace, as trimmed around the captured block. -/
def isWsChar (c : Char) : Bool :=
  c = ' ' || c = '\t' || c = '\n' || c = '\r'

/-- Drop whitespace from both ends. -/
def trimChars (cs : List Char) : List Char :=
  ((cs.dropWhile isWsChar).reverse.dropWhile isWsChar).reverse

/-- Modelled from the spec: the regex binding `re` used by
`parse_json_markdown` is absent from the provided sources; per §4.1
step 1 it locates a fenced code block tagged as structured data
(` ```json ... ``` `) and per the surrounding `\s*(.*?)\s*` idiom the
captured content is whitespace-trimmed.  Returns the content of the
first such block, or `none` when no tagged fenced block is present. -/
def extractFencedJson (text : String) : Option String :=
  match splitOnce "```json".data text.data with
  | none => none
  | some (_, after) =>
    match splitOnce "```".data after with
    | none => none
    | some (content, _) => some (String.mk (trimChars content))

/-- Model of `parse_json_markdown` (`output_parser.rs`, lines 113-121): extract
the fenced block and hand it to `parse_partial_json` in non-strict
mode. -/
def parse_json_markdown (json_markdown : String) : Option Json :=
  match extractFencedJson json_markdown with
  | some jsonStr => parsePartialJson jsonStr false
  | none => none

/-! ### Agent data model
`AgentAction`, `AgentFinish`, `AgentEvent` live in `schemas/agent`
(outside the provided sources); their fields are taken from their uses
in `output_parser.rs` / `executor.rs` and from spec §3. -/

structure AgentAction where
  tool : String
  tool_input : String
  log : String
deriving Repr, DecidableEq

structure AgentFinish where
  output : String
deriving Repr, DecidableEq

inductive AgentEvent where
  | Action (actions : List AgentAction) : AgentEvent
  | Finish (finish : AgentFinish) : AgentEvent
deriving Repr, DecidableEq

/-- The deserialization target of `ChatOutputParser::parse`
(`output_parser.rs`, lines 15-19). -/
structure AgentOutput where
  action : String
  action_input : String
deriving Repr, DecidableEq

/-- Model of `serde_json::from_value::<AgentOutput>`: the value must be
an object whose `action` and `action_input` fields are strings; other
fields are ignored (serde's default), anything else fails. -/
def decodeAgentOutput (v : Json) : Option AgentOutput :=
  match v with
  | .obj fields =>
    match fields.lookup "action", fields.lookup "action_input" with
    | some (.str a), some (.str i) => some ⟨a, i⟩
    | _, _ => none
  | _ => none

/-- Model of `ChatOutputParser::parse` (`output_parser.rs`, lines 33-60).  The
error carries the display string of `AgentError::SerdeJsonError`; the
embedded serde message stands in for the original dynamic one. -/
def ChatOutputParser.parse (text : String) : Except String AgentEvent :=
  match parse_json_markdown text with
  | some value =>
    match decodeAgentOutput value with
    | none => .error "Serde json error: invalid type for AgentOutput"
    | some agent_output =>
      if agent_output.action = "Final Answer" then
        .ok (.Finish ⟨agent_output.action_input⟩)
      else
        .ok (.Action [⟨agent_output.action, agent_output.action_input, text⟩])
  | none => .ok (.Finish ⟨text⟩)

/-! ### The Executor (`src/agent/executor.rs`)

The async trait objects are embedded as records of pure functions.  To
let effect-counting properties be stated, the loop additionally
returns the ordered trace of its observable effects (planning calls,
tool invocations, memory writes).  Rust `panic!` (from indexing a
`HashMap` at a missing key) is an explicit outcome.  The unbounded
`loop` is driven by fuel; running out of fuel is the distinct outcome
`fuelOut`. -/

/-- A conversational memory entry (spec §3: role-tagged entries). -/
inductive Message where
  | user (s : String) : Message
  | ai (s : String) : Message
deriving Repr, DecidableEq

/-- Model of `dyn BaseMemory` state: `add_user_message` /
`add_ai_message` append at the end of `messages()`. -/
abbrev Memory := List Message

/-- Modelled from the spec: `PromptArgs` is defined outside the
provided sources; per §6 it is a mapping from keys to payloads, with
overwriting insert and (as a Rust `HashMap`) a panicking index
operation at a missing key.  Payloads are modelled as strings. -/
abbrev PromptArgs := String → Option String

/-- Modelled from the spec: the serde rendering of `messages()` that
`call` inserts under `chat_history` is outside the provided sources;
only its opacity matters here. -/
def serializeMessages (ms : Memory) : String :=
  String.intercalate ";" (ms.map fun m =>
    match m with
    | .user s => "user:" ++ s
    | .ai s => "ai:" ++ s)

/-- Model of `dyn Tool`: a name and a fallible call. -/
structure ToolImpl where
  name : String
  call : String → Except String String

/-- Model of the `Agent` trait (`src/agent/agent.rs`): `plan` over
the intermediate steps and inputs, and the tool registry.  The error
string stands for the display of the returned `AgentError`. -/
structure AgentImpl where
  plan : List (AgentAction × String) → PromptArgs → Except String AgentEvent
  get_tools : List ToolImpl

/-- Model of `AgentExecutor` (`executor.rs`, lines 22-30). -/
structure AgentExecutor where
  agent : AgentImpl
  max_iterations : Option Int
  break_if_error : Bool
  memory : Option Memory

/-- Model of `AgentExecutor::from_agent` (`executor.rs`, lines 38-45). -/
def AgentExecutor.from_agent (agent : AgentImpl) : AgentExecutor :=
  { agent := agent, max_iterations := some 10, break_if_error := false, memory := none }

/-- Model of `AgentExecutor::with_max_iterations` (`executor.rs`, lines 48-51). -/
def AgentExecutor.with_max_iterations (ex : AgentExecutor) (m : Int) : AgentExecutor :=
  { ex with max_iterations := some m }

/-- Model of `AgentExecutor::with_memory` (`executor.rs`, lines 54-57). -/
def AgentExecutor.with_memory (ex : AgentExecutor) (m : Memory) : AgentExecutor :=
  { ex with memory := some m }

/-- Model of `AgentExecutor::with_break_if_error` (`executor.rs`, lines 60-63). -/
def AgentExecutor.with_break_if_error (ex : AgentExecutor) (b : Bool) : AgentExecutor :=
  { ex with break_if_error := b }

/-- The key normalization applied to a registered tool's name when the
registry is built: `tool.name().trim().replace(" ", "_")`
(`executor.rs`, line 70).  ASCII whitespace stands in for Rust's
Unicode trim; every name in this development is ASCII. -/
def normalizeToolKey (name : String) : String :=
  String.mk ((trimChars name.data).map fun c => if c = ' ' then '_' else c)

/-- Model of `AgentExecutor::get_name_to_tools` (`executor.rs`, lines 66-73):
a `HashMap` built by inserting each tool under its normalized name,
later insertions overwriting earlier ones; embedded as the lookup
function the map denotes. -/
def AgentExecutor.get_name_to_tools (ex : AgentExecutor) : String → Option ToolImpl :=
  ex.agent.get_tools.foldl
    (fun m t => fun k => if k = normalizeToolKey t.name then some t else m k)
    (fun _ => none)

/-- The Rust `max_iterations as usize` cast (`executor.rs`, line 156):
`i32` to 64-bit `usize` sign-extends. -/
def i32_as_usize (m : Int) : Nat :=
  (m.emod (2 ^ 64)).toNat

/-- One observable effect of a `call`. -/
inductive ExecEvent where
  | planCall : ExecEvent
  | toolCall (tool : String) (input : String) : ExecEvent
  | memUser (msg : String) : ExecEvent
  | memAI (msg : String) : ExecEvent
deriving Repr, DecidableEq

/-- Model of `GenerateResult` with only the field the executor sets; the other
fields are `Default::default()`. -/
structure GenerateResult where
  generation : String
deriving Repr, DecidableEq

/-- Outcome of `call`: `ok` / `err` mirror `Result`, `panicked` models
a Rust panic, `fuelOut` means the modelled loop was cut by fuel. -/
inductive CallResult where
  | ok (r : GenerateResult) : CallResult
  | err (e : String) : CallResult
  | panicked : CallResult
  | fuelOut : CallResult
deriving Repr, DecidableEq

/-- Prepend an event to the trace of an action-processing result. -/
def consEv (ev : ExecEvent) :
    Except (String × List (AgentAction × String) × List ExecEvent)
      (List (AgentAction × String) × List ExecEvent) →
    Except (String × List (AgentAction × String) × List ExecEvent)
      (List (AgentAction × String) × List ExecEvent)
  | .ok (steps, tr) => .ok (steps, ev :: tr)
  | .error (e, steps, tr) => .error (e, steps, ev :: tr)

/-- The `for action in actions` body of `call` (`executor.rs`, lines
111-140): resolve the tool by the action's verbatim name (fatal error
if absent), invoke it, and either fail fast (`break_if_error`) or fold
a failure into the observation; push the step.  Error strings are the
displays of the wrapped `AgentError`s. -/
def runActions (ntt : String → Option ToolImpl) (break_if_error : Bool) :
    List AgentAction → List (AgentAction × String) →
    Except (String × List (AgentAction × String) × List ExecEvent)
      (List (AgentAction × String) × List ExecEvent)
  | [], steps => .ok (steps, [])
  | action :: rest, steps =>
    match ntt action.tool with
    | none => .error ("Tool error: Tool " ++ action.tool ++ " not found", steps, [])
    | some tool =>
      match tool.call action.tool_input with
      | .ok observation =>
        consEv (.toolCall action.tool action.tool_input)
          (runActions ntt break_if_error rest (steps ++ [(action, observation)]))
      | .error err =>
        if break_if_error then
          .error ("Tool error: " ++ err, steps,
            [.toolCall action.tool action.tool_input])
        else
          consEv (.toolCall action.tool action.tool_input)
            (runActions ntt break_if_error rest
              (steps ++ [(action, "The tool return the following error: " ++ err)]))

/-- The `loop` of `AgentExecutor::call` (`executor.rs`, lines
100-163), fuel-indexed.  Returns the outcome, the final intermediate
steps, the final memory state, and the effect trace. -/
def callLoop
    (plan : List (AgentAction × String) → PromptArgs → Except String AgentEvent)
    (ntt : String → Option ToolImpl) (break_if_error : Bool)
    (max_iterations : Option Int) (iv : PromptArgs) :
    Nat → List (AgentAction × String) → Option Memory →
    CallResult × List (AgentAction × String) × Option Memory × List ExecEvent
  | 0, steps, mem => (.fuelOut, steps, mem, [])
  | fuel + 1, steps, mem =>
    match plan steps iv with
    | .error e => (.err ("Error in agent planning: " ++ e), steps, mem, [.planCall])
    | .ok (.Action actions) =>
      match runActions ntt break_if_error actions steps with
      | .error (e, steps1, trA) => (.err e, steps1, mem, .planCall :: trA)
      | .ok (steps1, trA) =>
        match max_iterations with
        | some m =>
          if i32_as_usize m ≤ steps1.length then
            (.ok ⟨"Max iterations reached"⟩, steps1, mem, .planCall :: trA)
          else
            match callLoop plan ntt break_if_error max_iterations iv fuel steps1 mem with
            | (res, steps2, mem2, tr2) => (res, steps2, mem2, .planCall :: trA ++ tr2)
        | none =>
          match callLoop plan ntt break_if_error max_iterations iv fuel steps1 mem with
          | (res, steps2, mem2, tr2) => (res, steps2, mem2, .planCall :: trA ++ tr2)
    | .ok (.Finish finish) =>
      match mem with
      | none => (.ok ⟨finish.output⟩, steps, none, [.planCall])
      | some m =>
        match iv "input" with
        | some v =>
          (.ok ⟨finish.output⟩, steps,
            some (m ++ [.user v, .ai finish.output]),
            [.planCall, .memUser v, .memAI finish.output])
        | none => (.panicked, steps, some m, [.planCall])

/-- Model of `AgentExecutor::call` (`executor.rs`, lines 83-164): build the
registry, seed `chat_history` from memory (or the empty default), and
run the loop with empty steps. -/
def AgentExecutor.call (ex : AgentExecutor) (input_variables : PromptArgs) (fuel : Nat) :
    CallResult × List (AgentAction × String) × Option Memory × List ExecEvent :=
  let name_to_tools := ex.get_name_to_tools
  let iv : PromptArgs := fun k =>
    if k = "chat_history" then some (serializeMessages (ex.memory.getD []))
    else input_variables k
  callLoop ex.agent.plan name_to_tools ex.break_if_error ex.max_iterations iv fuel [] ex.memory

/-- The memory-write events of a trace. -/
def memEvents (tr : List ExecEvent) : List ExecEvent :=
  tr.filter fun e =>
    match e with
    | .memUser _ => true
    | .memAI _ => true
    | _ => false

/-- The tool-invocation count of a trace. -/
def toolCallCount (tr : List ExecEvent) : Nat :=
  (tr.filter fun e =>
    match e with
    | .toolCall _ _ => true
    | _ => false).length

/-- The planning-call count of a trace. -/
def planCallCount (tr : List ExecEvent) : Nat :=
  (tr.filter fun e =>
    match e with
    | .planCall => true
    | _ => false).length

/-! ### Concrete scenarios used by the properties below -/

/-- Generated text whose fenced block carries the Final Answer sentinel. -/
def finalAnswerText : String :=
  "Thought: done\n```json\n\x7b\"action\": \"Final Answer\", \"action_input\": \"42\"\x7d\n```"

/-- Generated text whose fenced block names a tool. -/
def actionText : String :=
  "```json\n\x7b\"action\": \"Search\", \"action_input\": \"cats\"\x7d\n```"

/-- Plain prose with no fenced block. -/
def proseText : String := "just prose, no fences"

/-- A fenced block whose content has a mismatched closer. -/
def mismatchFencedText : String := "```json\n\x7b\"a\": [1,2\x7d\n```"

/-- A fenced block that decodes to the wrong shape (numeric `action`). -/
def badShapeText : String := "```json\n\x7b\"action\": 3, \"action_input\": \"x\"\x7d\n```"

/-- The truncated document of spec §8 (closing brace missing). -/
def truncatedExample : String := "\x7b\"action\": \"Foo\", \"action_input\": \"bar\""

/-- The mismatched-closer document of spec §8. -/
def mismatchedExample : String := "\x7b\"a\": [1,2\x7d"

/-- A tool that always succeeds, echoing its input. -/
def echoTool : ToolImpl := ⟨"echo", fun s => .ok ("obs:" ++ s)⟩

/-- A single-action plan result naming `echoTool`. -/
def echoAction : AgentAction := ⟨"echo", "x", "planning log"⟩

/-- An agent that always plans the same single action. -/
def alwaysActionAgent : AgentImpl :=
  ⟨fun _ _ => .ok (.Action [echoAction]), [echoTool]⟩

/-- An agent scripted to return `n` single-action Action events and
then a Finish. -/
def scriptedAgent (n : Nat) : AgentImpl :=
  ⟨fun steps _ =>
    if steps.length < n then .ok (.Action [echoAction]) else .ok (.Finish ⟨"done"⟩),
   [echoTool]⟩

/-- An agent that always finishes at once. -/
def constFinishAgent (out : String) : AgentImpl :=
  ⟨fun _ _ => .ok (.Finish ⟨out⟩), []⟩

/-- A tool registered under a natural-language (space-containing) name. -/
def naturalNameTool : ToolImpl := ⟨"search tool", fun s => .ok s⟩

/-- An agent whose action names the registered tool by its
natural-language name, exactly as registered. -/
def naturalNameAgent : AgentImpl :=
  ⟨fun _ _ => .ok (.Action [⟨"search tool", "q", "l"⟩]), [naturalNameTool]⟩

/-- Inputs with no keys at all. -/
def noInputs : PromptArgs := fun _ => none

/-- Inputs carrying only the `input` key. -/
def questionInputs : PromptArgs :=
  fun k => if k = "input" then some "question" else none

/-- The executor of the scripted N-action scenario: memory configured,
no iteration bound, default failure policy. -/
def scriptedExec (n : Nat) : AgentExecutor :=
  ⟨scriptedAgent n, none, false, some []⟩

/-- The executor of the unbounded-iterations scenario. -/
def unboundedExec : AgentExecutor :=
  ⟨alwaysActionAgent, none, false, none⟩

/-- The effect trace of the scripted scenario: `n` rounds of plan +
tool call, then the final plan and the two memory writes. -/
def scriptedTrace : Nat → List ExecEvent
  | 0 => [.planCall, .memUser "question", .memAI "done"]
  | n + 1 => .planCall :: .toolCall "echo" "x" :: scriptedTrace n

/-- The trace of an action-processing result, whichever branch. -/
def raTrace :
    Except (String × List (AgentAction × String) × List ExecEvent)
      (List (AgentAction × String) × List ExecEvent) → List ExecEvent
  | .ok (_, tr) => tr
  | .error (_, _, tr) => tr

/-! ## Properties -/

theorem memEvents_nil : memEvents [] = [] := rfl

theorem memEvents_planCall_cons (l : List ExecEvent) :
    memEvents (.planCall :: l) = memEvents l := rfl

theorem memEvents_toolCall_cons (n i : String) (l : List ExecEvent) :
    memEvents (.toolCall n i :: l) = memEvents l := rfl

theorem memEvents_memUser_cons (s : String) (l : List ExecEvent) :
    memEvents (.memUser s :: l) = .memUser s :: memEvents l := rfl

theorem memEvents_memAI_cons (s : String) (l : List ExecEvent) :
    memEvents (.memAI s :: l) = .memAI s :: memEvents l := rfl

theorem memEvents_append (l1 l2 : List ExecEvent) :
    memEvents (l1 ++ l2) = memEvents l1 ++ memEvents l2 := by
  simp [memEvents]

theorem raTrace_consEv (ev : ExecEvent)
    (x : Except (String × List (AgentAction × String) × List ExecEvent)
      (List (AgentAction × String) × List ExecEvent)) :
    raTrace (consEv ev x) = ev :: raTrace x := by
  rcases x with ⟨e, s, tr⟩ | ⟨s, tr⟩ <;> rfl

/-- Action processing emits only tool-invocation events: its trace has
no memory writes. -/
theorem runActions_no_memEvents (ntt : String → Option ToolImpl) (bie : Bool) :
    ∀ (actions : List AgentAction) (steps : List (AgentAction × String)),
      memEvents (raTrace (runActions ntt bie actions steps)) = [] := by
  intro actions
  induction actions with
  | nil => intro steps; rfl
  | cons a rest ih =>
    intro steps
    cases hr : ntt a.tool with
    | none => simp [runActions, hr, raTrace, memEvents]
    | some t =>
      cases hc : t.call a.tool_input with
      | ok obs =>
        simp [runActions, hr, hc, raTrace_consEv, memEvents_toolCall_cons, ih]
      | error e =>
        cases bie with
        | true => simp [runActions, hr, hc, raTrace, memEvents]
        | false => simp [runActions, hr, hc, raTrace_consEv, memEvents_toolCall_cons, ih]

/-- C2: on every input text whose fenced JSON block decodes into an
`action` / `action_input` pair, `parse` returns Finish with output
equal verbatim to `action_input` when `action` is the sentinel
"Final Answer", and otherwise a one-element Action batch with
`tool == action`, `tool_input == action_input` and `log` the entire
original input text unchanged. -/
theorem parse_fenced_block_dispatch (text : String) (v : Json) (o : AgentOutput)
    (hex : parse_json_markdown text = some v)
    (hdec : decodeAgentOutput v = some o) :
    (o.action = "Final Answer" →
      ChatOutputParser.parse text = .ok (.Finish ⟨o.action_input⟩)) ∧
    (o.action ≠ "Final Answer" →
      ChatOutputParser.parse text = .ok (.Action [⟨o.action, o.action_input, text⟩])) := by
  constructor <;> intro h <;>
    simp [ChatOutputParser.parse, hex, hdec, h]

/-- Witness for C2 at two concrete texts, one per branch. -/
theorem parse_fenced_block_dispatch_witness :
    ChatOutputParser.parse finalAnswerText = .ok (.Finish ⟨"42"⟩) ∧
    ChatOutputParser.parse actionText = .ok (.Action [⟨"Search", "cats", actionText⟩]) :=
  ⟨(parse_fenced_block_dispatch finalAnswerText
      (.obj [("action", .str "Final Answer"), ("action_input", .str "42")])
      ⟨"Final Answer", "42"⟩ rfl rfl).1 rfl,
   (parse_fenced_block_dispatch actionText
      (.obj [("action", .str "Search"), ("action_input", .str "cats")])
      ⟨"Search", "cats"⟩ rfl rfl).2 (by decide)⟩

/-- C3: `parse` never errors on malformed input — with no fenced block
it returns Finish with the original text, with an unparseable and
unrepairable block it also returns Finish with the original text, and
it errors exactly when a JSON value was extracted but fails to decode
into the `action` / `action_input` shape. -/
theorem parse_total_on_malformed :
    (∀ text, extractFencedJson text = none →
      ChatOutputParser.parse text = .ok (.Finish ⟨text⟩)) ∧
    (∀ text s, extractFencedJson text = some s →
      parsePartialJson s false = none →
      ChatOutputParser.parse text = .ok (.Finish ⟨text⟩)) ∧
    (∀ text, (∃ e, ChatOutputParser.parse text = .error e) ↔
      (∃ v, parse_json_markdown text = some v ∧ decodeAgentOutput v = none)) := by
  refine ⟨?_, ?_, ?_⟩
  · intro text h
    simp [ChatOutputParser.parse, parse_json_markdown, h]
  · intro text s h1 h2
    simp [ChatOutputParser.parse, parse_json_markdown, h1, h2]
  · intro text
    constructor
    · rintro ⟨e, he⟩
      unfold ChatOutputParser.parse at he
      cases hm : parse_json_markdown text with
      | none => rw [hm] at he; exact absurd he (by simp)
      | some v =>
        cases hd : decodeAgentOutput v with
        | none => exact ⟨v, rfl, hd⟩
        | some o =>
          by_cases hf : o.action = "Final Answer" <;> simp [hm, hd, hf] at he
    · rintro ⟨v, hm, hd⟩
      exact ⟨"Serde json error: invalid type for AgentOutput",
        by simp [ChatOutputParser.parse, hm, hd]⟩

/-- Witness for C3: prose passthrough, unrepairable-block passthrough,
and a hard error on a wrong-shape block, each at a concrete text. -/
theorem parse_total_on_malformed_witness :
    ChatOutputParser.parse proseText = .ok (.Finish ⟨proseText⟩) ∧
    ChatOutputParser.parse mismatchFencedText = .ok (.Finish ⟨mismatchFencedText⟩) ∧
    (∃ e, ChatOutputParser.parse badShapeText = .error e) :=
  ⟨parse_total_on_malformed.1 proseText rfl,
   parse_total_on_malformed.2.1 mismatchFencedText mismatchedExample rfl rfl,
   (parse_total_on_malformed.2.2 badShapeText).mpr
     ⟨.obj [("action", .num "3"), ("action_input", .str "x")], rfl, rfl⟩⟩

/-- C8: when the direct parse fails and the repair scan completes, the
remaining expected closers are appended in pop order and the result
re-parsed; in particular the truncated document of spec §8 repairs to
the same value as its fully-closed equivalent. -/
theorem repair_appends_closers_in_pop_order :
    (∀ s stack, from_str s = none →
      scanChars s.data [] false false = some stack →
      parsePartialJson s false = from_str (s ++ String.mk stack)) ∧
    parsePartialJson truncatedExample false = from_str (truncatedExample ++ "\x7d") ∧
    from_str (truncatedExample ++ "\x7d") =
      some (.obj [("action", .str "Foo"), ("action_input", .str "bar")]) := by
  refine ⟨?_, rfl, rfl⟩
  intro s stack h1 h2
  simp [parsePartialJson, h1, repairStage, h2]

/-- Witness for C8 at the truncated document of spec §8. -/
theorem repair_appends_closers_in_pop_order_witness :
    parsePartialJson truncatedExample false =
      from_str (truncatedExample ++ String.mk ['\x7d']) :=
  repair_appends_closers_in_pop_order.1 truncatedExample ['\x7d'] rfl rfl

/-- C9: when the repair scan meets, outside a quoted string, a closer
that mismatches the stack top or pops an empty stack, the repair
yields no value and `parse` falls back to Finish carrying the raw
original text; the spec's mismatched document aborts the scan. -/
theorem repair_rejects_mismatched_closers :
    (∀ text s, extractFencedJson text = some s →
      from_str s = none →
      scanChars s.data [] false false = none →
      parsePartialJson s false = none ∧
      ChatOutputParser.parse text = .ok (.Finish ⟨text⟩)) ∧
    scanChars mismatchedExample.data [] false false = none := by
  refine ⟨?_, rfl⟩
  intro text s hex hfs hscan
  have hpp : parsePartialJson s false = none := by
    simp [parsePartialJson, hfs, repairStage, hscan]
  refine ⟨hpp, ?_⟩
  simp [ChatOutputParser.parse, parse_json_markdown, hex, hpp]

/-- Witness for C9 at the spec's mismatched-closer document inside a
fenced block. -/
theorem repair_rejects_mismatched_closers_witness :
    parsePartialJson mismatchedExample false = none ∧
    ChatOutputParser.parse mismatchFencedText =
      .ok (.Finish ⟨mismatchFencedText⟩) :=
  repair_rejects_mismatched_closers.1 mismatchFencedText mismatchedExample rfl rfl rfl

/-- The registry fold resolves a key to the last-registered tool whose
normalized name equals the key, falling back to the accumulator. -/
theorem registry_foldl_lookup (l : List ToolImpl) (base : String → Option ToolImpl)
    (k : String) :
    (l.foldl (fun m t => fun q => if q = normalizeToolKey t.name then some t else m q)
        base) k =
      ((l.reverse.find? fun t => normalizeToolKey t.name == k).or (base k)) := by
  induction l generalizing base with
  | nil => simp
  | cons t ts ih =>
    rw [List.foldl_cons, ih, List.reverse_cons, List.find?_append]
    cases List.find? (fun t => normalizeToolKey t.name == k) ts.reverse with
    | some x => rfl
    | none =>
      by_cases h : k = normalizeToolKey t.name
      · simp [List.find?, h, Option.or]
      · have h2 : (normalizeToolKey t.name == k) = false := by
          simp [beq_iff_eq]
          exact fun hh => h hh.symm
        simp [List.find?, Option.or, h, h2]

/-- C1 counterexample: a tool registered under the natural-language
name "search tool" and a planned action naming exactly that
natural-language name — by the claim the action should still resolve
to the tool, but the call fails with a resolution error and invokes no
tool. -/
theorem natural_language_action_name_does_not_resolve :
    (AgentExecutor.from_agent naturalNameAgent).call noInputs 10 =
      (.err "Tool error: Tool search tool not found", [], none, [.planCall]) := by
  decide

/-- C1 (amended): the Executor normalizes only the registered tool
names (trim, spaces to underscores, later registrations winning) when
it builds the registry, and looks the action's tool name up verbatim
against those normalized keys; hence the normalized form of a
natural-language tool name resolves, while the natural-language
variant itself does not. -/
theorem tool_resolution_normalizes_registered_names_only :
    (∀ (ex : AgentExecutor) (k : String),
      ex.get_name_to_tools k =
        ex.agent.get_tools.reverse.find? fun t => normalizeToolKey t.name == k) ∧
    (AgentExecutor.from_agent naturalNameAgent).get_name_to_tools "search_tool" =
      some naturalNameTool ∧
    (AgentExecutor.from_agent naturalNameAgent).get_name_to_tools "search tool" =
      none := by
  refine ⟨?_, rfl, rfl⟩
  intro ex k
  have h := registry_foldl_lookup ex.agent.get_tools (fun _ => none) k
  simpa [AgentExecutor.get_name_to_tools] using h

/-- With an always-Action plan, a successful tool and no iteration
bound, the loop never terminates on its own: every fuel is exhausted. -/
theorem alwaysAction_loop_fuelOut
    (plan : List (AgentAction × String) → PromptArgs → Except String AgentEvent)
    (ntt : String → Option ToolImpl) (iv : PromptArgs)
    (a : AgentAction) (t : ToolImpl) (obs : String)
    (hplan : ∀ steps, plan steps iv = .ok (.Action [a]))
    (hres : ntt a.tool = some t) (hcall : t.call a.tool_input = .ok obs) :
    ∀ fuel steps mem, (callLoop plan ntt false none iv fuel steps mem).1 = .fuelOut := by
  intro fuel
  induction fuel with
  | zero => intro steps mem; rfl
  | succ n ih =>
    intro steps mem
    have hrun : runActions ntt false [a] steps =
        .ok (steps ++ [(a, obs)], [.toolCall a.tool a.tool_input]) := by
      simp [runActions, hres, hcall, consEv]
    simp only [callLoop, hplan, hrun]
    have ih2 := ih (steps ++ [(a, obs)]) mem
    revert ih2
    obtain ⟨r, s2, m2, t2⟩ := callLoop plan ntt false none iv n (steps ++ [(a, obs)]) mem
    intro ih2
    simpa using ih2

/-- C4: with `max_iterations = 2` and an agent that always plans one
action, the call accumulates exactly 2 steps, returns the fixed
sentinel "Max iterations reached", and plans exactly twice (never a
third time); with `max_iterations` unset the bound is disabled and the
loop never terminates by itself; `max_iterations = 0` still bounds
(zero is not "no limit"): one planning round, then the sentinel. -/
theorem max_iterations_bound :
    ((AgentExecutor.from_agent alwaysActionAgent |>.with_max_iterations 2).call
        noInputs 10 =
      (.ok ⟨"Max iterations reached"⟩, [(echoAction, "obs:x"), (echoAction, "obs:x")],
        none, [.planCall, .toolCall "echo" "x", .planCall, .toolCall "echo" "x"]) ∧
      planCallCount
        [.planCall, .toolCall "echo" "x", .planCall, .toolCall "echo" "x"] = 2) ∧
    (∀ fuel, (unboundedExec.call noInputs fuel).1 = .fuelOut) ∧
    ((AgentExecutor.from_agent alwaysActionAgent |>.with_max_iterations 0).call
        noInputs 10 =
      (.ok ⟨"Max iterations reached"⟩, [(echoAction, "obs:x")], none,
        [.planCall, .toolCall "echo" "x"]) ∧
      planCallCount [.planCall, .toolCall "echo" "x"] = 1) := by
  refine ⟨⟨by decide, by decide⟩, ?_, by decide, by decide⟩
  intro fuel
  exact alwaysAction_loop_fuelOut _ _ _ echoAction echoTool ("obs:" ++ "x")
    (fun _ => rfl) rfl rfl fuel [] none

/-- The loop writes to memory only when the planned event is a Finish,
and then exactly the user-then-assistant pair derived from the
`input` key and the finish output.  The no-write disjunct pins down
every successful result: it came either from a finish with memory
unconfigured, or from the iteration bound (bound configured and
reached, sentinel output) — so in particular the iteration-bound
branch never writes. -/
theorem callLoop_memory_discipline
    (plan : List (AgentAction × String) → PromptArgs → Except String AgentEvent)
    (ntt : String → Option ToolImpl) (bie : Bool) (maxI : Option Int)
    (iv : PromptArgs) :
    ∀ (fuel : Nat) (steps : List (AgentAction × String)) (mem : Option Memory)
      (res : CallResult) (steps2 : List (AgentAction × String))
      (mem2 : Option Memory) (tr : List ExecEvent),
      callLoop plan ntt bie maxI iv fuel steps mem = (res, steps2, mem2, tr) →
      (memEvents tr = [] ∧ mem2 = mem ∧
        (∀ out, res = .ok ⟨out⟩ →
          (mem = none ∧ plan steps2 iv = .ok (.Finish ⟨out⟩)) ∨
          (∃ m, maxI = some m ∧ i32_as_usize m ≤ steps2.length ∧
            out = "Max iterations reached"))) ∨
      (∃ v out m0, iv "input" = some v ∧ mem = some m0 ∧ res = .ok ⟨out⟩ ∧
        plan steps2 iv = .ok (.Finish ⟨out⟩) ∧
        memEvents tr = [.memUser v, .memAI out] ∧
        mem2 = some (m0 ++ [.user v, .ai out])) := by
  intro fuel
  induction fuel with
  | zero =>
    intro steps mem res steps2 mem2 tr h
    simp [callLoop] at h
    rcases h with ⟨rfl, rfl, rfl, rfl⟩
    left
    refine ⟨rfl, rfl, ?_⟩
    intro out hout
    simp at hout
  | succ n ih =>
    intro steps mem res steps2 mem2 tr h
    cases hp : plan steps iv with
    | error e =>
      simp [callLoop, hp] at h
      rcases h with ⟨rfl, rfl, rfl, rfl⟩
      left
      refine ⟨rfl, rfl, ?_⟩
      intro out hout
      simp at hout
    | ok ev =>
      cases ev with
      | Finish f =>
        cases mem with
        | none =>
          simp [callLoop, hp] at h
          rcases h with ⟨rfl, rfl, rfl, rfl⟩
          left
          refine ⟨rfl, rfl, ?_⟩
          intro out hout
          simp at hout
          subst hout
          exact Or.inl ⟨rfl, hp⟩
        | some m0 =>
          cases hiv : iv "input" with
          | none =>
            simp [callLoop, hp, hiv] at h
            rcases h with ⟨rfl, rfl, rfl, rfl⟩
            left
            refine ⟨rfl, rfl, ?_⟩
            intro out hout
            simp at hout
          | some v =>
            simp [callLoop, hp, hiv] at h
            rcases h with ⟨rfl, rfl, rfl, rfl⟩
            right
            exact ⟨v, f.output, m0, rfl, rfl, rfl, hp, rfl, rfl⟩
      | Action actions =>
        have hno := runActions_no_memEvents ntt bie actions steps
        cases hr : runActions ntt bie actions steps with
        | error err3 =>
          obtain ⟨e, s1, trA⟩ := err3
          rw [hr] at hno
          simp [callLoop, hp, hr] at h
          rcases h with ⟨rfl, rfl, rfl, rfl⟩
          left
          refine ⟨?_, rfl, ?_⟩
          · simpa [raTrace, memEvents_planCall_cons] using hno
          · intro out hout
            simp at hout
        | ok p =>
          obtain ⟨s1, trA⟩ := p
          rw [hr] at hno
          have htrA : memEvents trA = [] := by simpa [raTrace] using hno
          have hrest :
              ∀ (r2 : CallResult) (s2 : List (AgentAction × String))
                (m2 : Option Memory) (t2 : List ExecEvent),
                callLoop plan ntt bie maxI iv n s1 mem = (r2, s2, m2, t2) →
                (res, steps2, mem2, tr) =
                  (r2, s2, m2, .planCall :: trA ++ t2) →
                (memEvents tr = [] ∧ mem2 = mem ∧
                  (∀ out, res = .ok ⟨out⟩ →
                    (mem = none ∧ plan steps2 iv = .ok (.Finish ⟨out⟩)) ∨
                    (∃ m, maxI = some m ∧ i32_as_usize m ≤ steps2.length ∧
                      out = "Max iterations reached"))) ∨
                (∃ v out m0, iv "input" = some v ∧ mem = some m0 ∧
                  res = .ok ⟨out⟩ ∧
                  plan steps2 iv = .ok (.Finish ⟨out⟩) ∧
                  memEvents tr = [.memUser v, .memAI out] ∧
                  mem2 = some (m0 ++ [.user v, .ai out])) := by
            intro r2 s2 m2 t2 hc heq
            simp at heq
            rcases heq with ⟨rfl, rfl, rfl, rfl⟩
            rcases ih s1 mem _ _ _ _ hc with ⟨h1, h2, h3⟩ |
              ⟨v, out, m0, hv, hm, hres, hplan2, htr, hm2⟩
            · left
              refine ⟨?_, h2, h3⟩
              simp [memEvents_planCall_cons, memEvents_append, htrA, h1]
            · right
              refine ⟨v, out, m0, hv, hm, hres, hplan2, ?_, hm2⟩
              simp [memEvents_planCall_cons, memEvents_append, htrA, htr]
          cases maxI with
          | none =>
            rcases hc : callLoop plan ntt bie none iv n s1 mem with ⟨r2, s2, m2, t2⟩
            simp [callLoop, hp, hr, hc] at h
            exact hrest r2 s2 m2 t2 hc (by simp [h])
          | some mx =>
            by_cases hb : i32_as_usize mx ≤ s1.length
            · simp [callLoop, hp, hr, hb] at h
              rcases h with ⟨rfl, rfl, rfl, rfl⟩
              left
              refine ⟨?_, rfl, ?_⟩
              · simp [memEvents_planCall_cons, htrA]
              · intro out hout
                simp at hout
                subst hout
                exact Or.inr ⟨mx, rfl, hb, rfl⟩
            · rcases hc : callLoop plan ntt bie (some mx) iv n s1 mem with ⟨r2, s2, m2, t2⟩
              simp [callLoop, hp, hr, hb, hc] at h
              exact hrest r2 s2 m2 t2 hc (by simp [h])

theorem scriptedTrace_toolCallCount : ∀ n, toolCallCount (scriptedTrace n) = n := by
  intro n
  induction n with
  | zero => rfl
  | succ k ih =>
    simp only [scriptedTrace, toolCallCount, List.filter] at ih ⊢
    simp at ih ⊢
    omega

theorem scriptedTrace_memEvents :
    ∀ n, memEvents (scriptedTrace n) = [.memUser "question", .memAI "done"] := by
  intro n
  induction n with
  | zero => rfl
  | succ k ih =>
    rw [scriptedTrace, memEvents_planCall_cons, memEvents_toolCall_cons, ih]

/-- The scripted scenario's loop: from `steps` with `k` action rounds
left, the run finishes with output "done", appends `k` echo steps,
writes the single user-then-assistant pair, and emits `scriptedTrace
k`. -/
theorem scripted_loop (n : Nat) (ntt : String → Option ToolImpl) (iv : PromptArgs)
    (hntt : ntt "echo" = some echoTool) (hiv : iv "input" = some "question") :
    ∀ (k fuel : Nat) (steps : List (AgentAction × String)),
      steps.length + k = n → k < fuel →
      callLoop (scriptedAgent n).plan ntt false none iv fuel steps (some []) =
        (.ok ⟨"done"⟩, steps ++ List.replicate k (echoAction, "obs:" ++ "x"),
          some [.user "question", .ai "done"], scriptedTrace k) := by
  intro k
  induction k with
  | zero =>
    intro fuel steps hlen hfuel
    cases fuel with
    | zero => omega
    | succ f =>
      have hplan : (scriptedAgent n).plan steps iv = .ok (.Finish ⟨"done"⟩) := by
        simp only [scriptedAgent]
        rw [if_neg (by omega)]
      simp [callLoop, hplan, hiv, scriptedTrace]
  | succ k ih =>
    intro fuel steps hlen hfuel
    cases fuel with
    | zero => omega
    | succ f =>
      have hplan : (scriptedAgent n).plan steps iv = .ok (.Action [echoAction]) := by
        simp only [scriptedAgent]
        rw [if_pos (by omega)]
      have hrun : runActions ntt false [echoAction] steps =
          .ok (steps ++ [(echoAction, "obs:" ++ "x")], [.toolCall "echo" "x"]) := by
        simp [runActions, echoAction, hntt, echoTool, consEv]
      have hrec := ih f (steps ++ [(echoAction, "obs:" ++ "x")])
        (by simp; omega) (by omega)
      simp only [callLoop, hplan, hrun, hrec]
      simp [scriptedTrace, List.replicate_succ, List.append_assoc]

/-- C5: with Memory configured, `call` mutates Memory only on the
finish branch and there exactly once — appending the triggering input
as a user message then the finish output as an assistant message, in
that order.  No other branch writes: every run either writes nothing
and returns Memory unchanged — and then any successful result came
either from a finish with Memory unconfigured or from the iteration
bound (bound configured and reached, sentinel output) — or the final
planning round returned that very Finish event and exactly the
user-then-assistant pair was appended.  The scripted run of N
single-action rounds before a Finish performs exactly N tool
invocations and exactly that one write pair, and a memory-configured
run ending via the iteration bound returns Memory untouched with no
memory events. -/
theorem memory_written_once_on_finish :
    (∀ (plan : List (AgentAction × String) → PromptArgs → Except String AgentEvent)
      (ntt : String → Option ToolImpl) (bie : Bool) (maxI : Option Int)
      (iv : PromptArgs) (fuel : Nat) (steps : List (AgentAction × String))
      (mem : Option Memory) (res : CallResult)
      (steps2 : List (AgentAction × String)) (mem2 : Option Memory)
      (tr : List ExecEvent),
      callLoop plan ntt bie maxI iv fuel steps mem = (res, steps2, mem2, tr) →
      (memEvents tr = [] ∧ mem2 = mem ∧
        (∀ out, res = .ok ⟨out⟩ →
          (mem = none ∧ plan steps2 iv = .ok (.Finish ⟨out⟩)) ∨
          (∃ m, maxI = some m ∧ i32_as_usize m ≤ steps2.length ∧
            out = "Max iterations reached"))) ∨
      (∃ v out m0, iv "input" = some v ∧ mem = some m0 ∧ res = .ok ⟨out⟩ ∧
        plan steps2 iv = .ok (.Finish ⟨out⟩) ∧
        memEvents tr = [.memUser v, .memAI out] ∧
        mem2 = some (m0 ++ [.user v, .ai out]))) ∧
    (∀ n fuel, n < fuel →
      (scriptedExec n).call questionInputs fuel =
        (.ok ⟨"done"⟩, List.replicate n (echoAction, "obs:" ++ "x"),
          some [.user "question", .ai "done"], scriptedTrace n) ∧
      toolCallCount (scriptedTrace n) = n ∧
      memEvents (scriptedTrace n) = [.memUser "question", .memAI "done"]) ∧
    ((((AgentExecutor.from_agent alwaysActionAgent).with_max_iterations 2).with_memory
        [.user "seed"]).call questionInputs 10 =
      (.ok ⟨"Max iterations reached"⟩, [(echoAction, "obs:x"), (echoAction, "obs:x")],
        some [.user "seed"],
        [.planCall, .toolCall "echo" "x", .planCall, .toolCall "echo" "x"]) ∧
      memEvents [.planCall, .toolCall "echo" "x", .planCall, .toolCall "echo" "x"] = []) := by
  refine ⟨?_, ?_, by decide, by decide⟩
  · intro plan ntt bie maxI iv
    exact callLoop_memory_discipline plan ntt bie maxI iv
  · intro n fuel hfuel
    refine ⟨?_, scriptedTrace_toolCallCount n, scriptedTrace_memEvents n⟩
    exact scripted_loop n ((scriptedExec n).get_name_to_tools)
      (fun k => if k = "chat_history"
        then some (serializeMessages (((some ([] : Memory)) : Option Memory).getD []))
        else questionInputs k)
      rfl (by simp [questionInputs]) n fuel [] (by simp) hfuel

/-- Witness for C5: the discipline disjunction at a one-round concrete
run, and the scripted scenario at N = 2. -/
theorem memory_written_once_on_finish_witness :
    ((memEvents [ExecEvent.planCall, .memUser "question", .memAI "hi"] = [] ∧
        (some [Message.user "question", .ai "hi"] : Option Memory) = some [] ∧
        (∀ out, CallResult.ok ⟨"hi"⟩ = .ok ⟨out⟩ →
          ((some [] : Option Memory) = none ∧
            (constFinishAgent "hi").plan [] questionInputs = .ok (.Finish ⟨out⟩)) ∨
          (∃ m, (some 10 : Option Int) = some m ∧
            i32_as_usize m ≤ ([] : List (AgentAction × String)).length ∧
            out = "Max iterations reached"))) ∨
      (∃ v out m0, questionInputs "input" = some v ∧
        (some [] : Option Memory) = some m0 ∧
        (CallResult.ok ⟨"hi"⟩) = .ok ⟨out⟩ ∧
        (constFinishAgent "hi").plan [] questionInputs = .ok (.Finish ⟨out⟩) ∧
        memEvents [ExecEvent.planCall, .memUser "question", .memAI "hi"] =
          [.memUser v, .memAI out] ∧
        (some [Message.user "question", .ai "hi"] : Option Memory) =
          some (m0 ++ [.user v, .ai out]))) ∧
    ((scriptedExec 2).call questionInputs 3 =
      (.ok ⟨"done"⟩, List.replicate 2 (echoAction, "obs:" ++ "x"),
        some [.user "question", .ai "done"], scriptedTrace 2) ∧
      toolCallCount (scriptedTrace 2) = 2 ∧
      memEvents (scriptedTrace 2) = [.memUser "question", .memAI "done"]) :=
  ⟨memory_written_once_on_finish.1 (constFinishAgent "hi").plan (fun _ => none)
      false (some 10) questionInputs 1 [] (some []) (.ok ⟨"hi"⟩) []
      (some [.user "question", .ai "hi"])
      [.planCall, .memUser "question", .memAI "hi"] (by decide),
   memory_written_once_on_finish.2.1 2 3 (by decide)⟩

/-- C6: a failing tool invocation under `break_if_error = true`
surfaces a fatal error and appends no step for that invocation (though
the tool was called); under `break_if_error = false` it appends a step
whose observation embeds the failure description and continues with
the remaining actions; and an action-processing error is propagated by
the loop as a fatal call error. -/
theorem failing_tool_policy (ntt : String → Option ToolImpl) (a : AgentAction)
    (t : ToolImpl) (e : String) (rest : List AgentAction)
    (steps : List (AgentAction × String))
    (hres : ntt a.tool = some t) (hfail : t.call a.tool_input = .error e) :
    runActions ntt true (a :: rest) steps =
      .error ("Tool error: " ++ e, steps, [.toolCall a.tool a.tool_input]) ∧
    runActions ntt false (a :: rest) steps =
      consEv (.toolCall a.tool a.tool_input)
        (runActions ntt false rest
          (steps ++ [(a, "The tool return the following error: " ++ e)])) ∧
    (∀ plan maxI iv fuel mem actions msg s1 tr1,
      plan steps iv = .ok (.Action actions) →
      runActions ntt true actions steps = .error (msg, s1, tr1) →
      callLoop plan ntt true maxI iv (fuel + 1) steps mem =
        (.err msg, s1, mem, .planCall :: tr1)) := by
  refine ⟨?_, ?_, ?_⟩
  · simp [runActions, hres, hfail]
  · simp [runActions, hres, hfail]
  · intro plan maxI iv fuel mem actions msg s1 tr1 hplan hrun
    simp [callLoop, hplan, hrun]

/-- Witness for C6: a concrete failing tool under both policies. -/
theorem failing_tool_policy_witness :
    runActions (fun k => if k = "boom" then some ⟨"boom", fun _ => .error "exploded"⟩
        else none) true [⟨"boom", "x", "l"⟩] [] =
      .error ("Tool error: " ++ "exploded", [], [.toolCall "boom" "x"]) ∧
    runActions (fun k => if k = "boom" then some ⟨"boom", fun _ => .error "exploded"⟩
        else none) false [⟨"boom", "x", "l"⟩] [] =
      consEv (.toolCall "boom" "x")
        (runActions (fun k => if k = "boom" then some ⟨"boom", fun _ => .error "exploded"⟩
            else none) false []
          ([] ++ [(⟨"boom", "x", "l"⟩, "The tool return the following error: " ++ "exploded")])) :=
  ⟨(failing_tool_policy _ ⟨"boom", "x", "l"⟩ ⟨"boom", fun _ => .error "exploded"⟩
      "exploded" [] [] rfl rfl).1,
   (failing_tool_policy _ ⟨"boom", "x", "l"⟩ ⟨"boom", fun _ => .error "exploded"⟩
      "exploded" [] [] rfl rfl).2.1⟩

/-- C7: an action whose tool name does not resolve fails the whole
call with a fatal error regardless of `break_if_error`, appends no
step and invokes no tool; at the loop level the planning round ends
the call at once (no retry: the trace after the failing round is the
single planning call). -/
theorem unresolved_tool_is_fatal (ntt : String → Option ToolImpl)
    (break_if_error : Bool) (a : AgentAction) (rest : List AgentAction)
    (steps : List (AgentAction × String)) (h : ntt a.tool = none) :
    runActions ntt break_if_error (a :: rest) steps =
      .error ("Tool error: Tool " ++ a.tool ++ " not found", steps, []) ∧
    (∀ plan maxI iv fuel mem,
      plan steps iv = .ok (.Action (a :: rest)) →
      callLoop plan ntt break_if_error maxI iv (fuel + 1) steps mem =
        (.err ("Tool error: Tool " ++ a.tool ++ " not found"), steps, mem, [.planCall])) := by
  have h1 : runActions ntt break_if_error (a :: rest) steps =
      .error ("Tool error: Tool " ++ a.tool ++ " not found", steps, []) := by
    simp [runActions, h]
  refine ⟨h1, ?_⟩
  intro plan maxI iv fuel mem hplan
  simp [callLoop, hplan, h1]

/-- Witness for C7 under both `break_if_error` settings. -/
theorem unresolved_tool_is_fatal_witness :
    runActions (fun _ => none) true [⟨"ghost", "x", "l"⟩] [] =
      .error ("Tool error: Tool " ++ "ghost" ++ " not found", [], []) ∧
    runActions (fun _ => none) false [⟨"ghost", "x", "l"⟩] [] =
      .error ("Tool error: Tool " ++ "ghost" ++ " not found", [], []) ∧
    callLoop (fun _ _ => .ok (.Action [⟨"ghost", "x", "l"⟩])) (fun _ => none) false
        (some 10) noInputs 5 [] none =
      (.err ("Tool error: Tool " ++ "ghost" ++ " not found"), [], none, [.planCall]) :=
  ⟨(unresolved_tool_is_fatal (fun _ => none) true ⟨"ghost", "x", "l"⟩ [] [] rfl).1,
   (unresolved_tool_is_fatal (fun _ => none) false ⟨"ghost", "x", "l"⟩ [] [] rfl).1,
   (unresolved_tool_is_fatal (fun _ => none) false ⟨"ghost", "x", "l"⟩ [] [] rfl).2
     (fun _ _ => .ok (.Action [⟨"ghost", "x", "l"⟩])) (some 10) noInputs 4 none rfl⟩

/-- C10: on the finish branch with Memory configured, the executor
indexes the inputs at the key "input" with a panicking operation: if
the inputs lack that key the call panics (instead of erroring), both
at the loop level and for a full `call` with any memory bound. -/
theorem missing_input_key_panics_on_finish :
    (∀ plan ntt break_if_error maxI iv fuel steps m f,
      iv "input" = none → plan steps iv = .ok (.Finish f) →
      callLoop plan ntt break_if_error maxI iv (fuel + 1) steps (some m) =
        (.panicked, steps, some m, [.planCall])) ∧
    (∀ (iv : PromptArgs) m out fuel, iv "input" = none →
      ((AgentExecutor.from_agent (constFinishAgent out)).with_memory m).call iv (fuel + 1) =
        (.panicked, [], some m, [.planCall])) := by
  have hpart : ∀ (plan : List (AgentAction × String) → PromptArgs →
        Except String AgentEvent) (ntt : String → Option ToolImpl)
      (break_if_error : Bool) (maxI : Option Int) (iv : PromptArgs)
      (fuel : Nat) (steps : List (AgentAction × String)) (m : Memory)
      (f : AgentFinish),
      iv "input" = none → plan steps iv = .ok (.Finish f) →
      callLoop plan ntt break_if_error maxI iv (fuel + 1) steps (some m) =
        (.panicked, steps, some m, [.planCall]) := by
    intro plan ntt break_if_error maxI iv fuel steps m f hiv hplan
    simp [callLoop, hplan, hiv]
  refine ⟨hpart, ?_⟩
  intro iv m out fuel hiv
  exact hpart (constFinishAgent out).plan
    ((AgentExecutor.from_agent (constFinishAgent out)).with_memory m).get_name_to_tools
    false (some 10)
    (fun k => if k = "chat_history" then some (serializeMessages (((some m : Option Memory)).getD []))
      else iv k)
    fuel [] m ⟨out⟩ (by simp [hiv]) rfl

/-- Witness for C10 with empty inputs. -/
theorem missing_input_key_panics_on_finish_witness :
    callLoop (constFinishAgent "hi").plan (fun _ => none) false (some 10) noInputs
        3 [] (some []) = (.panicked, [], some [], [.planCall]) ∧
    ((AgentExecutor.from_agent (constFinishAgent "hi")).with_memory []).call noInputs 3 =
      (.panicked, [], some [], [.planCall]) :=
  ⟨missing_input_key_panics_on_finish.1 (constFinishAgent "hi").plan (fun _ => none)
      false (some 10) noInputs 2 [] [] ⟨"hi"⟩ rfl rfl,
   missing_input_key_panics_on_finish.2 noInputs [] "hi" 2 rfl⟩

end LangchainRust
